import Mathlib

/-!
Verification of the pure core of `src/bot.py`: the message chunker
`split_message`, the YouTube URL matcher (`YOUTUBE_URL_PATTERN`,
`is_youtube_url`, `extract_youtube_url`) and the access gate
(`ALLOWED_CHAT_IDS` parsing, `is_chat_allowed`).

Python strings are modelled as `List Char` (a Python `str` is a sequence of
code points).  Python builtins used by the source are modelled explicitly:
`str.rstrip` / `str.lstrip` / `str.strip` with no argument strip the
standard whitespace characters, `str.rfind(c, 0, stop)` returns the largest
index `p < stop` holding `c` (or -1, modelled as `Option`), and slicing
`s[:p]` / `s[p:]` is `List.take` / `List.drop`.
-/

/-- The ASCII whitespace characters stripped by Python's default
`str.strip` / `str.lstrip` / `str.rstrip` (space, tab, newline, carriage
return, vertical tab, form feed).  The source never feeds non-ASCII
whitespace to the chunker boundaries, so the Unicode extras are omitted. -/
def pyIsSpace (c : Char) : Bool :=
  c = ' ' || c = '\t' || c = '\n' || c = '\x0d' || c = '\x0b' || c = '\x0c'

/-- Python `str.lstrip()`: drop leading whitespace. -/
def lstrip (l : List Char) : List Char := l.dropWhile pyIsSpace

/-- Python `str.rstrip()`: drop trailing whitespace. -/
def rstrip (l : List Char) : List Char := (l.reverse.dropWhile pyIsSpace).reverse

/-- Python `str.strip()`: drop whitespace on both ends. -/
def pyStrip (l : List Char) : List Char := lstrip (rstrip l)

/-- Index of the last occurrence of `c` in `l`, if any. -/
def lastIdxOf (c : Char) : List Char → Option Nat
  | [] => none
  | a :: t =>
    match lastIdxOf c t with
    | some i => some (i + 1)
    | none => if a = c then some 0 else none

/-- Python `l.rfind(c, 0, stop)`: the largest index `p < stop` with
`l[p] = c`; `none` models the -1 returned when there is no occurrence. -/
def pyRfind (l : List Char) (c : Char) (stop : Nat) : Option Nat :=
  lastIdxOf c (l.take stop)

/-- The split position chosen by one iteration of the loop in
`split_message` (src/bot.py lines 101-110): the last newline in the first
`m` characters, else the last space there, else the hard cut at `m`. -/
def findSplitPos (remaining : List Char) (m : Nat) : Nat :=
  match pyRfind remaining '\n' m with
  | some p => p
  | none =>
    match pyRfind remaining ' ' m with
    | some p => p
    | none => m

theorem lstrip_length_le (l : List Char) : (lstrip l).length ≤ l.length :=
  (List.dropWhile_sublist pyIsSpace).length_le

theorem rstrip_length_le (l : List Char) : (rstrip l).length ≤ l.length := by
  have h := (List.dropWhile_sublist (l := l.reverse) pyIsSpace).length_le
  simpa [rstrip] using h

theorem lstrip_cons_space {a : Char} (t : List Char) (h : pyIsSpace a = true) :
    lstrip (a :: t) = lstrip t := by
  simp [lstrip, List.dropWhile_cons, h]

theorem lastIdxOf_lt_length {c : Char} {l : List Char} {p : Nat}
    (h : lastIdxOf c l = some p) : p < l.length := by
  induction l generalizing p with
  | nil => simp [lastIdxOf] at h
  | cons a t ih =>
    simp only [lastIdxOf] at h
    cases hrec : lastIdxOf c t with
    | some i =>
      rw [hrec] at h
      cases h
      exact Nat.succ_lt_succ (ih hrec)
    | none =>
      rw [hrec] at h
      by_cases hac : a = c
      · rw [if_pos hac] at h
        cases h
        simp
      · rw [if_neg hac] at h
        simp at h

theorem lastIdxOf_getElem {c : Char} {l : List Char} {p : Nat}
    (h : lastIdxOf c l = some p) : l[p]? = some c := by
  induction l generalizing p with
  | nil => simp [lastIdxOf] at h
  | cons a t ih =>
    simp only [lastIdxOf] at h
    cases hrec : lastIdxOf c t with
    | some i =>
      rw [hrec] at h
      cases h
      simpa using ih hrec
    | none =>
      rw [hrec] at h
      by_cases hac : a = c
      · rw [if_pos hac] at h
        cases h
        simp [hac]
      · rw [if_neg hac] at h
        simp at h

theorem pyRfind_spec {l : List Char} {c : Char} {stop p : Nat}
    (h : pyRfind l c stop = some p) :
    p < stop ∧ p < l.length ∧ l[p]? = some c := by
  have hlt := lastIdxOf_lt_length h
  have hget := lastIdxOf_getElem h
  rw [List.length_take] at hlt
  have hps : p < stop := lt_of_lt_of_le hlt (min_le_left _ _)
  have hpl : p < l.length := lt_of_lt_of_le hlt (min_le_right _ _)
  refine ⟨hps, hpl, ?_⟩
  rwa [List.getElem?_take, if_pos hps] at hget

theorem findSplitPos_le (r : List Char) (m : Nat) : findSplitPos r m ≤ m := by
  unfold findSplitPos
  cases h1 : pyRfind r '\n' m with
  | some p => exact le_of_lt (pyRfind_spec h1).1
  | none =>
    cases h2 : pyRfind r ' ' m with
    | some p => exact le_of_lt (pyRfind_spec h2).1
    | none => exact le_refl m

theorem findSplitPos_spec (r : List Char) (m : Nat) :
    findSplitPos r m = m ∨
      (findSplitPos r m < m ∧
        ∃ c, pyIsSpace c = true ∧ r[findSplitPos r m]? = some c) := by
  unfold findSplitPos
  cases h1 : pyRfind r '\n' m with
  | some p =>
    right
    exact ⟨(pyRfind_spec h1).1, '\n', by decide, (pyRfind_spec h1).2.2⟩
  | none =>
    cases h2 : pyRfind r ' ' m with
    | some p =>
      right
      exact ⟨(pyRfind_spec h2).1, ' ', by decide, (pyRfind_spec h2).2.2⟩
    | none => exact Or.inl rfl

/-- One loop iteration strictly shrinks `remaining`: the length of
`lstrip (remaining[split_pos:])` is below the length of `remaining`
whenever the loop guard `len(remaining) > max_length` and the precondition
`max_length > 0` hold. -/
theorem lstrip_drop_findSplitPos_length_lt (r : List Char) (m : Nat)
    (hm : 0 < m) (hr : m < r.length) :
    (lstrip (r.drop (findSplitPos r m))).length < r.length := by
  rcases findSplitPos_spec r m with heq | ⟨hlt, c, hc, hget⟩
  · calc (lstrip (r.drop (findSplitPos r m))).length
        ≤ (r.drop (findSplitPos r m)).length := lstrip_length_le _
      _ = r.length - m := by rw [heq, List.length_drop]
      _ < r.length := Nat.sub_lt (lt_of_le_of_lt (Nat.zero_le m) hr) hm
  · set p := findSplitPos r m with hp
    have hpl : p < r.length := lt_trans hlt hr
    have hdrop : r.drop p = r[p] :: r.drop (p + 1) := List.drop_eq_getElem_cons hpl
    have hgc : r[p] = c := by
      have := List.getElem?_eq_getElem hpl
      rw [this] at hget
      exact Option.some_injective _ hget
    calc (lstrip (r.drop p)).length
        = (lstrip (r.drop (p + 1))).length := by
          rw [hdrop, hgc, lstrip_cons_space _ hc]
      _ ≤ (r.drop (p + 1)).length := lstrip_length_le _
      _ = r.length - (p + 1) := List.length_drop _ _
      _ < r.length := Nat.sub_lt (lt_of_le_of_lt (Nat.zero_le _) hpl) (Nat.succ_pos p)

/-- The while-loop of `split_message` (src/bot.py lines 100-120) merged with
the final append of the leftover text: while `len(remaining) > max_length`,
pick the split position, emit `remaining[:split_pos].rstrip()` when it is
non-empty, and continue on `remaining[split_pos:].lstrip()`; once
`len(remaining) ≤ max_length`, append `remaining` iff it is non-empty.
The recursion is paced by explicit fuel, one unit per loop iteration; since
each iteration strictly shrinks `remaining` when `max_length > 0`
(`lstrip_drop_findSplitPos_length_lt`), fuel `remaining.length` is enough
and `chunkLoop` below never hits the fuel-exhaustion branch.  Python
diverges when `max_length ≤ 0` (the spec documents `max_length > 0` as a
precondition); no claim depends on that case. -/
def chunkLoopF : Nat → Nat → List Char → List (List Char)
  | 0, _, _ => []
  | fuel + 1, m, remaining =>
    if remaining.length ≤ m then
      if remaining = [] then [] else [remaining]
    else
      (if rstrip (remaining.take (findSplitPos remaining m)) = [] then []
        else [rstrip (remaining.take (findSplitPos remaining m))]) ++
      chunkLoopF fuel m (lstrip (remaining.drop (findSplitPos remaining m)))

/-- The loop of `split_message`, with enough fuel for all its iterations. -/
def chunkLoop (m : Nat) (remaining : List Char) : List (List Char) :=
  chunkLoopF remaining.length m remaining

theorem chunkLoopF_nil (fuel m : Nat) : chunkLoopF fuel m [] = [] := by
  cases fuel with
  | zero => rfl
  | succ f => simp [chunkLoopF]

theorem chunkLoopF_fuel_irrel (m : Nat) (hm : 0 < m) :
    ∀ f1 f2 r, r.length ≤ f1 → r.length ≤ f2 →
      chunkLoopF f1 m r = chunkLoopF f2 m r := by
  intro f1
  induction f1 with
  | zero =>
    intro f2 r h1 _
    have : r = [] := List.length_eq_zero.mp (Nat.le_zero.mp h1)
    subst this
    rw [chunkLoopF_nil, chunkLoopF_nil]
  | succ f ih =>
    intro f2 r h1 h2
    cases f2 with
    | zero =>
      have : r = [] := List.length_eq_zero.mp (Nat.le_zero.mp h2)
      subst this
      rw [chunkLoopF_nil, chunkLoopF_nil]
    | succ g =>
      by_cases hle : r.length ≤ m
      · simp only [chunkLoopF, if_pos hle]
      · have hshrink := lstrip_drop_findSplitPos_length_lt r m hm (Nat.lt_of_not_le hle)
        simp only [chunkLoopF, if_neg hle]
        rw [ih g (lstrip (r.drop (findSplitPos r m))) (by omega) (by omega)]

/-- `split_message` from src/bot.py lines 92-122: return `[text]` when
`len(text) ≤ max_length`, otherwise run the chunking loop. -/
def split_message (text : List Char) (m : Nat) : List (List Char) :=
  if text.length ≤ m then [text] else chunkLoop m text

/-- Joining a chunk list with single spaces (the re-chunking property of
the spec joins chunks this way). -/
def joinSpace (cs : List (List Char)) : List Char :=
  List.intercalate [' '] cs

/-- Interleave `n + 1` separators around `n` chunks:
`glue [s0, s1, ..., sn] [c1, ..., cn] = s0 ++ c1 ++ s1 ++ ... ++ cn ++ sn`. -/
def glue : List (List Char) → List (List Char) → List Char
  | s :: ss, c :: cs => s ++ c ++ glue ss cs
  | s :: _, [] => s
  | [], _ => []

/-- Interleave separators strictly between chunks:
`glueBetween [c1, ..., cn] [s1, ..., s_n-1] = c1 ++ s1 ++ c2 ++ ... ++ cn`. -/
def glueBetween : List (List Char) → List (List Char) → List Char
  | [], _ => []
  | [c], _ => c
  | c :: cs, s :: ss => c ++ s ++ glueBetween cs ss
  | c :: cs, [] => c ++ glueBetween cs []

/-- The identifier character class `[a-zA-Z0-9_-]` of
`YOUTUBE_URL_PATTERN` (src/bot.py lines 40-42). -/
def isIdChar (c : Char) : Bool :=
  (decide ('a' ≤ c) && decide (c ≤ 'z')) ||
  (decide ('A' ≤ c) && decide (c ≤ 'Z')) ||
  (decide ('0' ≤ c) && decide (c ≤ '9')) ||
  c = '_' || c = '-'

/-- The twelve concrete prefixes generated by the optional/alternative
parts of `YOUTUBE_URL_PATTERN`, in Python backtracking order: the optional
scheme group is tried with greedy `s?` first (`https://`, then `http://`,
then absent), then the optional `www.`, then the host alternation
(`youtube.com/watch?v=` before `youtu.be/`). -/
def comboLiterals : List (List Char) :=
  (["https://", "http://", ""].map String.toList).flatMap fun s =>
    (["www.", ""].map String.toList).flatMap fun w =>
      (["youtube.com/watch?v=", "youtu.be/"].map String.toList).map fun h =>
        s ++ w ++ h

/-- Attempt of `YOUTUBE_URL_PATTERN` at start position `i` of `text`:
some prefix literal must match there, followed by at least 11 identifier
characters of which exactly 11 are consumed (`[a-zA-Z0-9_-]{11}` with
nothing anchored after it).  Returns the length of the match. -/
def matchAt (text : List Char) (i : Nat) : Option Nat :=
  comboLiterals.findSome? fun L =>
    if L.isPrefixOf (text.drop i) &&
        11 ≤ (((text.drop i).drop L.length).takeWhile isIdChar).length
    then some (L.length + 11) else none

def searchAux (text : List Char) : Nat → Nat → Option (Nat × Nat)
  | 0, _ => none
  | fuel + 1, i =>
    match matchAt text i with
    | some len => some (i, len)
    | none => searchAux text fuel (i + 1)

/-- Python `YOUTUBE_URL_PATTERN.search(text)`: the leftmost start position
where the pattern matches, with the match length. -/
def searchYt (text : List Char) : Option (Nat × Nat) :=
  searchAux text (text.length + 1) 0

/-- `is_youtube_url` from src/bot.py lines 45-47: `bool(search(text))`. -/
def is_youtube_url (text : List Char) : Bool :=
  (searchYt text).isSome

/-- The scheme normalization inside `extract_youtube_url` (src/bot.py
lines 56-57): prefix `https://` unless the match starts with `http`. -/
def ensureScheme (u : List Char) : List Char :=
  if ("http".toList).isPrefixOf u then u else "https://".toList ++ u

/-- `extract_youtube_url` from src/bot.py lines 50-59: the first matching
substring, normalized, or `None` (modelled as `none`) when no match. -/
def extract_youtube_url (text : List Char) : Option (List Char) :=
  match searchYt text with
  | some (i, len) => some (ensureScheme ((text.drop i).take len))
  | none => none

/-- `is_chat_allowed` from src/bot.py lines 62-67, with the module-level
`ALLOWED_CHAT_IDS` passed explicitly.  A Python `set` is modelled as the
list of its elements: only emptiness and membership are observed. -/
def is_chat_allowed (allowed : List Int) (chat_id : Int) : Bool :=
  if allowed.isEmpty then true else allowed.contains chat_id

/-- Python `s.split(',')`: split on every comma; the empty string yields
one empty field. -/
def splitComma : List Char → List (List Char)
  | [] => [[]]
  | c :: rest =>
    match splitComma rest with
    | [] => if c = ',' then [[], []] else [[c]]
    | h :: t => if c = ',' then [] :: h :: t else (c :: h) :: t

/-- Python `int(s)` on an already-stripped string: an optional sign
followed by at least one ASCII digit; `none` models the `ValueError`
raised otherwise.  (Python also accepts underscore digit-group separators
and non-ASCII decimal digits; the source configuration format is plain
comma-separated ASCII integers, so these extras are omitted.) -/
def pyInt (s : List Char) : Option Int :=
  let digitsVal : List Char → Option Int := fun l =>
    if l ≠ [] && l.all Char.isDigit
    then some (l.foldl (fun a c => a * 10 + (c.toNat - 48 : Int)) 0) else none
  match s with
  | '+' :: rest => digitsVal rest
  | '-' :: rest => (digitsVal rest).map Int.neg
  | _ => digitsVal s

/-- The module-level parse of `TELEGRAM_CHAT_IDS_STR` into
`ALLOWED_CHAT_IDS` (src/bot.py lines 27-35): when the string is falsy the
set stays empty; otherwise split on commas, strip each field, keep the
non-empty fields, and convert each to an integer — a `ValueError` on any
field discards the whole list, leaving the set empty. -/
def ALLOWED_CHAT_IDS (s : List Char) : List Int :=
  if s = [] then []
  else
    let entries := ((splitComma s).map pyStrip).filter (fun e => e ≠ [])
    let parsed := entries.map pyInt
    if parsed.all Option.isSome then parsed.reduceOption else []

theorem lstrip_decomp (l : List Char) :
    ∃ w, w.all pyIsSpace = true ∧ w ++ lstrip l = l := by
  refine ⟨l.takeWhile pyIsSpace, ?_, ?_⟩
  · rw [List.all_eq_true]
    intro x hx
    exact List.mem_takeWhile_imp hx
  · rw [lstrip]
    exact List.takeWhile_append_dropWhile pyIsSpace l

theorem rstrip_decomp (l : List Char) :
    ∃ w, w.all pyIsSpace = true ∧ rstrip l ++ w = l := by
  refine ⟨(l.reverse.takeWhile pyIsSpace).reverse, ?_, ?_⟩
  · rw [List.all_eq_true]
    intro x hx
    rw [List.mem_reverse] at hx
    exact List.mem_takeWhile_imp hx
  · rw [rstrip, ← List.reverse_append]
    rw [List.takeWhile_append_dropWhile]
    exact l.reverse_reverse

theorem rstrip_eq_nil_all_space {l : List Char} (h : rstrip l = []) :
    l.all pyIsSpace = true := by
  rw [rstrip] at h
  have h2 : l.reverse.dropWhile pyIsSpace = [] := by
    have := congrArg List.reverse h
    simpa using this
  rw [List.dropWhile_eq_nil_iff] at h2
  rw [List.all_eq_true]
  intro x hx
  exact h2 x (List.mem_reverse.mpr hx)

theorem rstrip_length_le_take (r : List Char) (p : Nat) :
    (rstrip (r.take p)).length ≤ p := by
  calc (rstrip (r.take p)).length ≤ (r.take p).length := rstrip_length_le _
    _ ≤ p := by
      rw [List.length_take]
      exact min_le_left _ _

theorem chunkLoop_eq_of_m_lt (m : Nat) (r : List Char) (hm : 0 < m)
    (hr : ¬ r.length ≤ m) :
    chunkLoop m r =
      (if rstrip (r.take (findSplitPos r m)) = [] then []
        else [rstrip (r.take (findSplitPos r m))]) ++
      chunkLoop m (lstrip (r.drop (findSplitPos r m))) := by
  have hshrink := lstrip_drop_findSplitPos_length_lt r m hm (Nat.lt_of_not_le hr)
  have hpos : 0 < r.length := lt_of_le_of_lt (Nat.zero_le m) (Nat.lt_of_not_le hr)
  obtain ⟨k, hk⟩ : ∃ k, r.length = k + 1 := ⟨r.length - 1, by omega⟩
  rw [chunkLoop, chunkLoop, hk]
  simp only [chunkLoopF, if_neg hr]
  rw [chunkLoopF_fuel_irrel m hm k (lstrip (r.drop (findSplitPos r m))).length
    (lstrip (r.drop (findSplitPos r m))) (by omega) (le_refl _)]

theorem chunkLoop_eq_of_le (m : Nat) (r : List Char)
    (hr : r.length ≤ m) :
    chunkLoop m r = if r = [] then [] else [r] := by
  cases hr2 : r.length with
  | zero =>
    have : r = [] := List.length_eq_zero.mp hr2
    subst this
    rw [chunkLoop, chunkLoopF_nil, if_pos rfl]
  | succ k =>
    rw [chunkLoop, hr2]
    simp only [chunkLoopF]
    rw [if_pos hr]

/-- Every chunk emitted by the loop fits in `m` characters and is
non-empty. -/
theorem chunkLoop_mem_spec (m : Nat) (hm : 0 < m) :
    ∀ n r, r.length ≤ n → ∀ c ∈ chunkLoop m r, c.length ≤ m ∧ c ≠ [] := by
  intro n
  induction n with
  | zero =>
    intro r hr c hc
    interval_cases h : r.length
    · have hrnil : r = [] := List.length_eq_zero.mp h
      rw [hrnil, chunkLoop_eq_of_le m [] (by simp)] at hc
      simp at hc
  | succ n ih =>
    intro r hr c hc
    by_cases hle : r.length ≤ m
    · rw [chunkLoop_eq_of_le m r hle] at hc
      by_cases hnil : r = []
      · rw [if_pos hnil] at hc
        simp at hc
      · rw [if_neg hnil] at hc
        rw [List.mem_singleton] at hc
        exact hc ▸ ⟨hle, hnil⟩
    · rw [chunkLoop_eq_of_m_lt m r hm hle] at hc
      rw [List.mem_append] at hc
      rcases hc with hc | hc
      · by_cases hch : rstrip (r.take (findSplitPos r m)) = []
        · rw [if_pos hch] at hc
          simp at hc
        · rw [if_neg hch] at hc
          rw [List.mem_singleton] at hc
          rw [hc]
          exact ⟨le_trans (rstrip_length_le_take r _) (findSplitPos_le r m), hch⟩
      · have hshrink := lstrip_drop_findSplitPos_length_lt r m hm (Nat.lt_of_not_le hle)
        exact ih (lstrip (r.drop (findSplitPos r m))) (by omega) c hc

/-- `glue` absorbs extra material prepended to the first separator. -/
theorem glue_cons_append (x s : List Char) (ss cs : List (List Char)) :
    glue ((x ++ s) :: ss) cs = x ++ glue (s :: ss) cs := by
  cases cs with
  | nil => simp [glue]
  | cons c cs => simp [glue]

/-- The loop reconstructs its input: there are whitespace separators
around the emitted chunks whose interleaving is exactly `r`. -/
theorem chunkLoop_glue_spec (m : Nat) (hm : 0 < m) :
    ∀ n r, r.length ≤ n →
      ∃ seps, seps.length = (chunkLoop m r).length + 1 ∧
        (∀ w ∈ seps, w.all pyIsSpace = true) ∧
        glue seps (chunkLoop m r) = r := by
  intro n
  induction n with
  | zero =>
    intro r hr
    have hrnil : r = [] := List.length_eq_zero.mp (Nat.le_zero.mp hr)
    subst hrnil
    rw [chunkLoop_eq_of_le m [] (by simp), if_pos rfl]
    exact ⟨[[]], by simp, by simp, by simp [glue]⟩
  | succ n ih =>
    intro r hr
    by_cases hle : r.length ≤ m
    · rw [chunkLoop_eq_of_le m r hle]
      by_cases hnil : r = []
      · rw [if_pos hnil]
        exact ⟨[[]], by simp, by simp, by simp [glue, hnil]⟩
      · rw [if_neg hnil]
        exact ⟨[[], []], by simp, by simp, by simp [glue]⟩
    · rw [chunkLoop_eq_of_m_lt m r hm hle]
      have hshrink := lstrip_drop_findSplitPos_length_lt r m hm (Nat.lt_of_not_le hle)
      obtain ⟨seps, hlen, hsp, hglue⟩ :=
        ih (lstrip (r.drop (findSplitPos r m))) (by omega)
      cases seps with
      | nil => simp at hlen
      | cons s0 ss =>
        obtain ⟨w2, hw2, hw2eq⟩ := lstrip_decomp (r.drop (findSplitPos r m))
        obtain ⟨w1, hw1, hw1eq⟩ := rstrip_decomp (r.take (findSplitPos r m))
        by_cases hch : rstrip (r.take (findSplitPos r m)) = []
        · rw [if_pos hch]
          refine ⟨(r.take (findSplitPos r m) ++ (w2 ++ s0)) :: ss, by simpa using hlen,
            ?_, ?_⟩
          · intro w hw
            rw [List.mem_cons] at hw
            rcases hw with hw | hw
            · subst hw
              have htake : (r.take (findSplitPos r m)).all pyIsSpace = true := by
                have := rstrip_eq_nil_all_space hch
                exact this
              rw [List.all_append, List.all_append]
              rw [htake, hw2, hsp s0 (List.mem_cons_self s0 ss)]
              rfl
            · exact hsp w (List.mem_cons_of_mem s0 hw)
          · rw [List.nil_append, glue_cons_append, glue_cons_append, hglue, hw2eq]
            exact List.take_append_drop _ r
        · rw [if_neg hch]
          refine ⟨[] :: (w1 ++ (w2 ++ s0)) :: ss, by simpa using hlen, ?_, ?_⟩
          · intro w hw
            rw [List.mem_cons] at hw
            rcases hw with hw | hw
            · subst hw; rfl
            · rw [List.mem_cons] at hw
              rcases hw with hw | hw
              · subst hw
                rw [List.all_append, List.all_append]
                rw [hw1, hw2, hsp s0 (List.mem_cons_self s0 ss)]
                rfl
              · exact hsp w (List.mem_cons_of_mem _ hw)
          · show [] ++ rstrip (r.take (findSplitPos r m)) ++
              glue ((w1 ++ (w2 ++ s0)) :: ss) (chunkLoop m (lstrip (r.drop (findSplitPos r m)))) = r
            rw [List.nil_append, glue_cons_append, glue_cons_append, hglue, ← List.append_assoc,
              hw1eq, hw2eq]
            exact List.take_append_drop _ r

theorem split_message_chunks_spec (text : List Char) (m : Nat) (hm : 0 < m) :
    ∀ c ∈ split_message text m, c.length ≤ m ∧ (text ≠ [] → c ≠ []) := by
  intro c hc
  rw [split_message] at hc
  by_cases hle : text.length ≤ m
  · rw [if_pos hle, List.mem_singleton] at hc
    subst hc
    exact ⟨hle, fun h => h⟩
  · rw [if_neg hle] at hc
    have := chunkLoop_mem_spec m hm text.length text (le_refl _) c hc
    exact ⟨this.1, fun _ => this.2⟩

theorem split_message_glue (text : List Char) (m : Nat) (hm : 0 < m) :
    ∃ seps, seps.length = (split_message text m).length + 1 ∧
      (∀ w ∈ seps, w.all pyIsSpace = true) ∧
      glue seps (split_message text m) = text := by
  rw [split_message]
  by_cases hle : text.length ≤ m
  · rw [if_pos hle]
    exact ⟨[[], []], by simp, by simp, by simp [glue]⟩
  · rw [if_neg hle]
    exact chunkLoop_glue_spec m hm text.length text (le_refl _)

/-- When every chunk is non-empty, a glued decomposition bounds the chunk
count by the length of the glued text. -/
theorem glue_chunks_length_le :
    ∀ (cs seps : List (List Char)) (t : List Char),
      seps.length = cs.length + 1 → glue seps cs = t → (∀ c ∈ cs, c ≠ []) →
      cs.length ≤ t.length := by
  intro cs
  induction cs with
  | nil => intro seps t _ _ _; simp
  | cons c cs ih =>
    intro seps t hlen hglue hne
    cases seps with
    | nil => simp at hlen
    | cons s ss =>
      have hg : s ++ c ++ glue ss cs = t := hglue
      have hlen2 : ss.length = cs.length + 1 := by simpa using hlen
      have hrec : cs.length ≤ (glue ss cs).length :=
        ih ss (glue ss cs) hlen2 rfl (fun x hx => hne x (List.mem_cons_of_mem c hx))
      have hcpos : 0 < c.length := by
        have := hne c (List.mem_cons_self c cs)
        exact List.length_pos.mpr this
      have : t.length = s.length + c.length + (glue ss cs).length := by
        rw [← hg]; simp [Nat.add_assoc]
      simp only [List.length_cons]
      omega

/-- The chunk count of any split is bounded by the length of the input
(or is the single chunk `[text]` when the input is short, in particular
the empty input gives one empty chunk). -/
theorem split_message_count_le (text : List Char) (m : Nat) (hm : 0 < m) :
    (split_message text m).length ≤ max 1 text.length := by
  by_cases hnil : text = []
  · subst hnil
    rw [split_message]
    simp
  · obtain ⟨seps, hlen, _, hglue⟩ := split_message_glue text m hm
    have hne : ∀ c ∈ split_message text m, c ≠ [] :=
      fun c hc => (split_message_chunks_spec text m hm c hc).2 hnil
    have := glue_chunks_length_le (split_message text m) seps text hlen hglue hne
    omega

/-- C1.  The claim quantifies over every input string, but the empty input
is returned unchanged as the single chunk `""`, which is an empty element
of the result (src/bot.py lines 94-95): `split_message("", 1) = [""]`. -/
theorem C1_counterexample :
    ¬ (∀ c ∈ split_message ([] : List Char) 1, c.length ≤ 1 ∧ c ≠ []) := by
  decide

/-- C1 (amended).  For every text and max_length > 0, every chunk returned
by split_message has length at most max_length, and when the input text is
non-empty no chunk is empty. -/
theorem C1_chunk_invariants (text : List Char) (m : Nat) (hm : 0 < m) :
    (∀ c ∈ split_message text m, c.length ≤ m) ∧
    (text ≠ [] → ∀ c ∈ split_message text m, c ≠ []) :=
  ⟨fun c hc => (split_message_chunks_spec text m hm c hc).1,
   fun hne c hc => (split_message_chunks_spec text m hm c hc).2 hne⟩

theorem C1_chunk_invariants_witness :
    ("hel".toList.length ≤ 3 ∧ "hel".toList ≠ []) ∧ (0 : Nat) < 3 :=
  ⟨⟨(C1_chunk_invariants ("hello world".toList) 3 (by decide)).1
      ("hel".toList) (by decide),
    (C1_chunk_invariants ("hello world".toList) 3 (by decide)).2
      (by decide) ("hel".toList) (by decide)⟩,
   by decide⟩

/-- C2.  A string no longer than max_length is returned unchanged as the
sole chunk (src/bot.py lines 94-95). -/
theorem C2_short_input_identity (s : List Char) (m : Nat) (_hm : 0 < m)
    (hs : s.length ≤ m) : split_message s m = [s] := by
  rw [split_message, if_pos hs]

theorem C2_short_input_identity_witness :
    split_message ("ab".toList) 5 = ["ab".toList] :=
  C2_short_input_identity ("ab".toList) 5 (by decide) (by decide)

/-- C3.  Under the precondition max_length > 0, each iteration of the loop
in split_message strictly shrinks the remaining text (so the loop, modelled
by the terminating recursion `chunkLoop`, is total): whenever the loop
guard `len(remaining) > max_length` holds, the next remaining text
`remaining[split_pos:].lstrip()` is strictly shorter, and the loop body
emits the rstripped prefix (when non-empty) before recursing. -/
theorem C3_loop_strictly_shrinks (r : List Char) (m : Nat) (hm : 0 < m)
    (hr : m < r.length) :
    (lstrip (r.drop (findSplitPos r m))).length < r.length ∧
    chunkLoop m r =
      (if rstrip (r.take (findSplitPos r m)) = [] then []
        else [rstrip (r.take (findSplitPos r m))]) ++
      chunkLoop m (lstrip (r.drop (findSplitPos r m))) :=
  ⟨lstrip_drop_findSplitPos_length_lt r m hm hr,
   chunkLoop_eq_of_m_lt m r hm (Nat.not_le.mpr hr)⟩

theorem C3_loop_strictly_shrinks_witness :
    (lstrip (("abcdef".toList).drop (findSplitPos ("abcdef".toList) 2))).length <
      ("abcdef".toList).length :=
  (C3_loop_strictly_shrinks ("abcdef".toList) 2 (by decide) (by decide)).1

/-- C4.  The claim locates all dropped whitespace strictly between
consecutive chunks, but whitespace can also be dropped before the first
chunk: `split_message(" a", 1)` returns `["a"]`, and no whitespace-only
separators inserted between the chunks (there is only one chunk, hence
nothing to insert) can rebuild `" a"`. -/
theorem C4_counterexample :
    split_message (" a".toList) 1 = [['a']] ∧
    ¬ ∃ seps : List (List Char), (∀ w ∈ seps, w.all pyIsSpace = true) ∧
        glueBetween (split_message (" a".toList) 1) seps = " a".toList := by
  constructor
  · decide
  · rintro ⟨seps, -, hg⟩
    have h1 : split_message (" a".toList) 1 = [['a']] := by decide
    rw [h1] at hg
    have h2 : glueBetween [['a']] seps = ['a'] := by
      cases seps <;> rfl
    rw [h2] at hg
    simp [String.toList] at hg

/-- C4 (amended).  The chunks are, in order, non-overlapping substrings of
the input; all material dropped by the chunker is whitespace, located
between consecutive chunks and possibly also before the first chunk and
after the last one: there are whitespace-only separators
`s0, ..., sn` with `text = s0 ++ c1 ++ s1 ++ ... ++ cn ++ sn`. -/
theorem C4_whitespace_reconstruction (text : List Char) (m : Nat)
    (hm : 0 < m) :
    ∃ seps, seps.length = (split_message text m).length + 1 ∧
      (∀ w ∈ seps, w.all pyIsSpace = true) ∧
      glue seps (split_message text m) = text :=
  split_message_glue text m hm

theorem C4_whitespace_reconstruction_witness :
    ∃ seps, seps.length = (split_message ("ab cd".toList) 3).length + 1 ∧
      (∀ w ∈ seps, w.all pyIsSpace = true) ∧
      glue seps (split_message ("ab cd".toList) 3) = "ab cd".toList :=
  C4_whitespace_reconstruction ("ab cd".toList) 3 (by decide)

/-- C9.  Re-chunking can grow: `split_message("a\na\naaa", 4)` gives the
two chunks `["a\na", "aaa"]`, but re-chunking their space-join
`"a\na aaa"` gives the three chunks `["a", "a", "aaa"]` — the newline kept
inside the first chunk becomes a preferred split point of the joined
text. -/
theorem C9_counterexample :
    (split_message ("a\na\naaa".toList) 4).length = 2 ∧
    (split_message (joinSpace (split_message ("a\na\naaa".toList) 4)) 4).length = 3 ∧
    ¬ ((split_message (joinSpace (split_message ("a\na\naaa".toList) 4)) 4).length ≤
        (split_message ("a\na\naaa".toList) 4).length) := by
  refine ⟨by decide, by decide, by decide⟩

/-- C9 (amended).  Re-joining all chunks with single spaces and
re-chunking can yield more chunks than the original split, but the growth
is bounded — the re-chunk count never exceeds the length of the joined
text (or 1 when the joined text is empty) — so iterated re-chunking cannot
grow without bound. -/
theorem C9_rechunk_bounded (text : List Char) (m : Nat) (hm : 0 < m) :
    (split_message (joinSpace (split_message text m)) m).length ≤
      max 1 (joinSpace (split_message text m)).length :=
  split_message_count_le (joinSpace (split_message text m)) m hm

theorem C9_rechunk_bounded_witness :
    (split_message (joinSpace (split_message ("xy".toList) 1)) 1).length ≤
      max 1 (joinSpace (split_message ("xy".toList) 1)).length :=
  C9_rechunk_bounded ("xy".toList) 1 (by decide)

theorem take_append_len {α : Type} (a b : List α) (n : Nat) :
    (a ++ b).take (a.length + n) = a ++ b.take n := by
  induction a with
  | nil => simp
  | cons x xs ih => simpa [Nat.succ_add] using ih

theorem takeWhile_append_of_all {p : Char → Bool} {l : List Char}
    (h : l.all p = true) (r : List Char) :
    (l ++ r).takeWhile p = l ++ r.takeWhile p := by
  induction l with
  | nil => simp
  | cons x xs ih =>
    rw [List.all_cons, Bool.and_eq_true] at h
    rw [List.cons_append, List.takeWhile_cons_of_pos h.1, ih h.2]
    simp

theorem takeWhile_eq_nil_of_head {p : Char → Bool} {r : List Char}
    (h : ∀ c, r.head? = some c → p c = false) :
    r.takeWhile p = [] := by
  cases r with
  | nil => rfl
  | cons x xs =>
    have hx : p x = false := h x rfl
    rw [List.takeWhile_cons_of_neg]
    rw [hx]
    exact Bool.false_ne_true

theorem findSome?_of_unique {α β : Type} {f : α → Option β} {l : List α}
    {a : α} {b : β} (ha : a ∈ l) (hfa : f a = some b)
    (huniq : ∀ x ∈ l, x ≠ a → f x = none) :
    l.findSome? f = some b := by
  induction l with
  | nil => simp at ha
  | cons x xs ih =>
    by_cases hxa : x = a
    · subst hxa
      rw [List.findSome?_cons, hfa]
    · have hx : f x = none := huniq x (List.mem_cons_self x xs) hxa
      rw [List.findSome?_cons, hx]
      have ha2 : a ∈ xs := by
        rcases List.mem_cons.mp ha with h | h
        · exact absurd h.symm hxa
        · exact h
      exact ih ha2 (fun y hy hne => huniq y (List.mem_cons_of_mem x hy) hne)

/-- The twelve regex prefix literals are pairwise prefix-incomparable. -/
theorem comboLiterals_prefix_free :
    ∀ L1 ∈ comboLiterals, ∀ L2 ∈ comboLiterals,
      L1 ≠ L2 → L1.isPrefixOf L2 = false := by
  decide

theorem combo_not_prefix_of_ne {L L2 : List Char}
    (hL : L ∈ comboLiterals) (hL2 : L2 ∈ comboLiterals) (hne : L2 ≠ L)
    (u : List Char) : L2.isPrefixOf (L ++ u) = false := by
  by_contra hcon
  have hpre : L2 <+: L ++ u := by
    rw [← List.isPrefixOf_iff_prefix]
    exact Bool.of_not_eq_false hcon
  have hLpre : L <+: L ++ u := ⟨u, rfl⟩
  rcases List.prefix_or_prefix_of_prefix hpre hLpre with h | h
  · have := comboLiterals_prefix_free L2 hL2 L hL hne
    rw [List.isPrefixOf_iff_prefix.mpr h] at this
    exact Bool.noConfusion this
  · have := comboLiterals_prefix_free L hL L2 hL2 (fun hx => hne hx.symm)
    rw [List.isPrefixOf_iff_prefix.mpr h] at this
    exact Bool.noConfusion this

/-- If a prefix literal matches at `i` and at least 11 identifier
characters follow it, the pattern matches at `i` with length
`L.length + 11`. -/
theorem matchAt_some_of {text : List Char} {i : Nat} {L u : List Char}
    (hL : L ∈ comboLiterals) (hdrop : text.drop i = L ++ u)
    (hcount : 11 ≤ (u.takeWhile isIdChar).length) :
    matchAt text i = some (L.length + 11) := by
  rw [matchAt]
  refine findSome?_of_unique hL ?_ ?_
  · have hpre : L.isPrefixOf (text.drop i) = true := by
      rw [List.isPrefixOf_iff_prefix, hdrop]
      exact ⟨u, rfl⟩
    have hdrop2 : (text.drop i).drop L.length = u := by
      rw [hdrop, List.drop_left]
    rw [hpre, hdrop2]
    simp only [Bool.true_and]
    rw [if_pos (by simpa using hcount)]
  · intro L2 hL2 hne
    have hfalse : L2.isPrefixOf (text.drop i) = false := by
      rw [hdrop]
      exact combo_not_prefix_of_ne hL hL2 hne u
    rw [hfalse]
    simp

/-- If a prefix literal matches at `i` but the maximal run of identifier
characters after it is shorter than 11, the pattern fails at `i`. -/
theorem matchAt_none_of {text : List Char} {i : Nat} {L idrun rest : List Char}
    (hL : L ∈ comboLiterals) (hdrop : text.drop i = L ++ (idrun ++ rest))
    (hid : idrun.all isIdChar = true)
    (hrest : ∀ c, rest.head? = some c → isIdChar c = false)
    (hshort : idrun.length < 11) :
    matchAt text i = none := by
  rw [matchAt]
  rw [List.findSome?_eq_none_iff]
  intro L2 hL2
  by_cases hne : L2 = L
  · subst hne
    have hdrop2 : (text.drop i).drop L2.length = idrun ++ rest := by
      rw [hdrop, List.drop_left]
    have hcount : ((idrun ++ rest).takeWhile isIdChar).length = idrun.length := by
      rw [takeWhile_append_of_all hid, takeWhile_eq_nil_of_head hrest]
      simp
    rw [hdrop2, hcount]
    rw [if_neg]
    simp only [Bool.and_eq_true, decide_eq_true_eq]
    rintro ⟨-, hc⟩
    omega
  · have hfalse : L2.isPrefixOf (text.drop i) = false := by
      rw [hdrop]
      exact combo_not_prefix_of_ne hL hL2 hne (idrun ++ rest)
    rw [hfalse]
    simp

/-- A successful match at `i` decomposes the text there as one of the
prefix literals followed by at least 11 identifier characters. -/
theorem matchAt_some_elim {text : List Char} {i len : Nat}
    (h : matchAt text i = some len) :
    ∃ L ∈ comboLiterals, len = L.length + 11 ∧
      L.isPrefixOf (text.drop i) = true ∧
      11 ≤ (((text.drop i).drop L.length).takeWhile isIdChar).length := by
  rw [matchAt] at h
  obtain ⟨L, hL, hfL⟩ := List.exists_of_findSome?_eq_some h
  by_cases hc : L.isPrefixOf (text.drop i) &&
      decide (11 ≤ (((text.drop i).drop L.length).takeWhile isIdChar).length)
  · rw [if_pos hc] at hfL
    rw [Bool.and_eq_true, decide_eq_true_eq] at hc
    cases hfL
    exact ⟨L, hL, rfl, hc.1, hc.2⟩
  · rw [if_neg hc] at hfL
    exact absurd hfL (by simp)

theorem searchAux_some_spec (text : List Char) :
    ∀ fuel i j len, searchAux text fuel i = some (j, len) →
      matchAt text j = some len ∧ i ≤ j ∧
        ∀ k, i ≤ k → k < j → matchAt text k = none := by
  intro fuel
  induction fuel with
  | zero => intro i j len h; simp [searchAux] at h
  | succ n ih =>
    intro i j len h
    rw [searchAux] at h
    cases hm : matchAt text i with
    | some l =>
      rw [hm] at h
      cases h
      exact ⟨hm, le_refl i, fun k hik hki => absurd (lt_of_le_of_lt hik hki) (lt_irrefl i)⟩
    | none =>
      rw [hm] at h
      obtain ⟨h1, h2, h3⟩ := ih (i + 1) j len h
      refine ⟨h1, le_trans (Nat.le_succ i) h2, fun k hik hkj => ?_⟩
      by_cases hki : k = i
      · rw [hki]; exact hm
      · exact h3 k (by omega) hkj

/-- All the prefix literals are at least 9 characters long and
non-empty. -/
theorem comboLiterals_length : ∀ L ∈ comboLiterals, 9 ≤ L.length := by
  decide

/-- A literal that starts with `http` starts with a full scheme. -/
theorem comboLiterals_http_scheme :
    ∀ L ∈ comboLiterals, "http".toList.isPrefixOf L = true →
      ("https://".toList.isPrefixOf L = true ∨
        "http://".toList.isPrefixOf L = true) := by
  decide

theorem prefix_of_left_of_le {p L w : List Char} (h : p <+: L ++ w)
    (hlen : p.length ≤ L.length) : p <+: L := by
  rcases List.prefix_or_prefix_of_prefix h (⟨w, rfl⟩ : L <+: L ++ w) with h2 | h2
  · exact h2
  · have heq : L = p :=
      List.IsPrefix.eq_of_length h2 (le_antisymm h2.length_le hlen)
    rw [heq]

/-- Any URL returned by `extract_youtube_url` is non-empty and carries a
scheme. -/
theorem extract_scheme_spec (text url : List Char)
    (h : extract_youtube_url text = some url) :
    url ≠ [] ∧ ("https://".toList.isPrefixOf url = true ∨
      "http://".toList.isPrefixOf url = true) := by
  rw [extract_youtube_url] at h
  cases hs : searchYt text with
  | none => rw [hs] at h; exact absurd h (by simp)
  | some v =>
    obtain ⟨i, len⟩ := v
    rw [hs] at h
    have hmatch : matchAt text i = some len :=
      (searchAux_some_spec text (text.length + 1) 0 i len hs).1
    obtain ⟨L, hL, hlen, hpre, -⟩ := matchAt_some_elim hmatch
    obtain ⟨v, hv⟩ : ∃ v, L ++ v = text.drop i :=
      List.isPrefixOf_iff_prefix.mp hpre
    have hsub : (text.drop i).take len = L ++ v.take 11 := by
      rw [← hv, hlen, take_append_len]
    have hurl : url = ensureScheme ((text.drop i).take len) :=
      (Option.some.inj h).symm
    have hLne : L ≠ [] := by
      have := comboLiterals_length L hL
      intro hnil
      rw [hnil] at this
      simp at this
    rw [ensureScheme] at hurl
    by_cases hhttp : "http".toList.isPrefixOf ((text.drop i).take len) = true
    · rw [if_pos hhttp] at hurl
      have hp4 : "http".toList <+: L ++ v.take 11 := by
        rw [← hsub]
        exact List.isPrefixOf_iff_prefix.mp hhttp
      have hlen4 : ("http".toList).length ≤ L.length := by
        have h9 := comboLiterals_length L hL
        have h4 : ("http".toList).length = 4 := by decide
        omega
      have hpre2 : "http".toList <+: L := prefix_of_left_of_le hp4 hlen4
      have hscheme := comboLiterals_http_scheme L hL
        (List.isPrefixOf_iff_prefix.mpr hpre2)
      have hLsub : L <+: (text.drop i).take len := by
        rw [hsub]; exact ⟨v.take 11, rfl⟩
      constructor
      · rw [hurl, hsub]
        simp [hLne]
      · rcases hscheme with h2 | h2
        · left
          rw [hurl, List.isPrefixOf_iff_prefix]
          exact List.IsPrefix.trans (List.isPrefixOf_iff_prefix.mp h2) hLsub
        · right
          rw [hurl, List.isPrefixOf_iff_prefix]
          exact List.IsPrefix.trans (List.isPrefixOf_iff_prefix.mp h2) hLsub
    · rw [if_neg hhttp] at hurl
      constructor
      · rw [hurl]; simp
      · left
        rw [hurl, List.isPrefixOf_iff_prefix]
        exact ⟨(text.drop i).take len, rfl⟩

/-- C5.  A shorter-than-11 identifier never matches, but a candidate whose
identifier run is LONGER than 11 characters does match — the regex simply
consumes the first 11 characters; `"youtu.be/abcdefghijkl"` carries a
12-character identifier run yet the matcher reports a match of length 20
(host plus 11 identifier characters), so the claim that identifiers longer
than 11 characters must not match is false on the code. -/
theorem C5_counterexample :
    ("abcdefghijkl".toList).length = 12 ∧
    ("abcdefghijkl".toList).all isIdChar = true ∧
    matchAt ("youtu.be/abcdefghijkl".toList) 0 = some 20 ∧
    is_youtube_url ("youtu.be/abcdefghijkl".toList) = true := by
  refine ⟨by decide, by decide, by decide, by decide⟩

/-- C5 (amended).  At a candidate position — a text beginning with one of
the twelve host/scheme prefix literals of `YOUTUBE_URL_PATTERN`, followed
by a maximal run of identifier characters `[a-zA-Z0-9_-]` — the pattern
fails when the run is shorter than 11 characters, and matches consuming
the prefix literal plus exactly the first 11 identifier characters when
the run has 11 or more. -/
theorem C5_identifier_length (L idrun rest : List Char)
    (hL : L ∈ comboLiterals) (hid : idrun.all isIdChar = true)
    (hrest : ∀ c, rest.head? = some c → isIdChar c = false) :
    (idrun.length < 11 → matchAt (L ++ (idrun ++ rest)) 0 = none) ∧
    (11 ≤ idrun.length → matchAt (L ++ (idrun ++ rest)) 0 = some (L.length + 11)) := by
  constructor
  · intro hshort
    exact matchAt_none_of hL (by simp) hid hrest hshort
  · intro hlong
    refine @matchAt_some_of (L ++ (idrun ++ rest)) 0 L (idrun ++ rest) hL (by simp) ?_
    rw [takeWhile_append_of_all hid, takeWhile_eq_nil_of_head hrest]
    simpa using hlong

theorem C5_identifier_length_witness :
    matchAt ("youtu.be/".toList ++ ("abc".toList ++ ([] : List Char))) 0 = none ∧
    matchAt ("youtu.be/".toList ++ ("abcdefghijkl".toList ++ ([] : List Char))) 0 =
      some (("youtu.be/".toList).length + 11) :=
  ⟨(C5_identifier_length ("youtu.be/".toList) ("abc".toList) []
      (by decide) (by decide) (fun c hc => by simp at hc)).1 (by decide),
   (C5_identifier_length ("youtu.be/".toList) ("abcdefghijkl".toList) []
      (by decide) (by decide) (fun c hc => by simp at hc)).2 (by decide)⟩

/-- C6.  `extract_youtube_url` returns the leftmost match — when the
search succeeds at position `i` (no earlier position matches), the result
is that matching substring normalized by `ensureScheme`; when the search
fails the result is the explicit not-found signal `none` (never an empty
string: any returned URL is non-empty and starts with `https://` or
`http://`); on the spec's examples it extracts
`https://www.youtube.com/watch?v=dQw4w9WgXcQ` and signals not-found on
`no link here`. -/
theorem C6_extract_first_match (text : List Char) :
    (∀ i len, searchYt text = some (i, len) →
      matchAt text i = some len ∧
      (∀ j, j < i → matchAt text j = none) ∧
      extract_youtube_url text = some (ensureScheme ((text.drop i).take len))) ∧
    (searchYt text = none → extract_youtube_url text = none) ∧
    (∀ url, extract_youtube_url text = some url →
      url ≠ [] ∧ ("https://".toList.isPrefixOf url = true ∨
        "http://".toList.isPrefixOf url = true)) ∧
    extract_youtube_url ("check this out: https://www.youtube.com/watch?v=dQw4w9WgXcQ".toList) =
      some ("https://www.youtube.com/watch?v=dQw4w9WgXcQ".toList) ∧
    extract_youtube_url ("no link here".toList) = none := by
  refine ⟨?_, ?_, ?_, by decide, by decide⟩
  · intro i len hs
    obtain ⟨h1, -, h3⟩ := searchAux_some_spec text (text.length + 1) 0 i len hs
    refine ⟨h1, fun j hj => h3 j (Nat.zero_le j) hj, ?_⟩
    rw [extract_youtube_url, hs]
  · intro hs
    rw [extract_youtube_url, hs]
  · intro url hurl
    exact extract_scheme_spec text url hurl

theorem C6_extract_first_match_witness :
    matchAt ("check this out: https://www.youtube.com/watch?v=dQw4w9WgXcQ".toList) 16 =
      some 43 ∧
    extract_youtube_url ("check this out: https://www.youtube.com/watch?v=dQw4w9WgXcQ".toList) =
      some (ensureScheme ((("check this out: https://www.youtube.com/watch?v=dQw4w9WgXcQ".toList).drop 16).take 43)) := by
  have h := (C6_extract_first_match
    ("check this out: https://www.youtube.com/watch?v=dQw4w9WgXcQ".toList)).1
    16 43 (by decide)
  exact ⟨h.1, h.2.2⟩

/-- C10.  `is_youtube_url` is exactly the matched test of the same search
that `extract_youtube_url` performs: it returns true iff the extraction
returns a URL, so extraction cannot fail after the check passed. -/
theorem C10_check_iff_extract (text : List Char) :
    is_youtube_url text = true ↔ ∃ url, extract_youtube_url text = some url := by
  rw [is_youtube_url, extract_youtube_url]
  cases hs : searchYt text with
  | none => simp
  | some v =>
    obtain ⟨i, len⟩ := v
    simp

/-- C7.  The access gate permits everything when the allow-set is empty
(backward-compatibility rule) and otherwise permits exactly the members;
in particular the empty set admits every identifier, and the set
containing only 42 admits 42 and rejects 7. -/
theorem C7_gate_rule (allowed : List Int) (chat_id : Int) :
    (is_chat_allowed allowed chat_id = true ↔
      (allowed = [] ∨ chat_id ∈ allowed)) ∧
    is_chat_allowed [] chat_id = true ∧
    is_chat_allowed [42] 42 = true ∧
    is_chat_allowed [42] 7 = false := by
  refine ⟨?_, by rfl, by decide, by decide⟩
  rw [is_chat_allowed]
  by_cases hnil : allowed = []
  · subst hnil
    simp
  · rw [if_neg (by simpa [List.isEmpty_iff] using hnil)]
    simp [hnil, List.contains, List.elem_iff]

/-- C8.  If any stripped non-empty entry of the comma-separated allow-list
configuration string fails integer parsing, the whole configured list is
discarded: the resulting allow-set is empty, and under the gate rule every
conversation identifier is then permitted (the failure is non-fatal — the
parse is a total function). -/
theorem C8_parse_failure_allows_all (s : List Char)
    (h : ∃ e ∈ (splitComma s).map pyStrip, e ≠ [] ∧ pyInt e = none) :
    ALLOWED_CHAT_IDS s = [] ∧
    ∀ chat_id : Int, is_chat_allowed (ALLOWED_CHAT_IDS s) chat_id = true := by
  obtain ⟨e, he, hne, hfail⟩ := h
  have hempty : ALLOWED_CHAT_IDS s = [] := by
    rw [ALLOWED_CHAT_IDS]
    by_cases hs : s = []
    · rw [if_pos hs]
    · rw [if_neg hs]
      have hmem : e ∈ ((splitComma s).map pyStrip).filter (fun x => x ≠ []) := by
        rw [List.mem_filter]
        exact ⟨he, by simpa using hne⟩
      have hnotall :
          ¬ ((((splitComma s).map pyStrip).filter (fun x => x ≠ [])).map pyInt).all
            Option.isSome = true := by
        rw [List.all_eq_true]
        intro hall
        have := hall (pyInt e) (List.mem_map_of_mem pyInt hmem)
        rw [hfail] at this
        simp at this
      rw [if_neg hnotall]
  refine ⟨hempty, fun chat_id => ?_⟩
  rw [hempty]
  rfl

theorem C8_parse_failure_allows_all_witness :
    ALLOWED_CHAT_IDS ("12,abc".toList) = [] ∧
    is_chat_allowed (ALLOWED_CHAT_IDS ("12,abc".toList)) 99 = true :=
  ⟨(C8_parse_failure_allows_all ("12,abc".toList)
      ⟨"abc".toList, by decide, by decide, by decide⟩).1,
   (C8_parse_failure_allows_all ("12,abc".toList)
      ⟨"abc".toList, by decide, by decide, by decide⟩).2 99⟩
